import Mathlib

/-!
Verification development for the nstimes client: a shallow embedding of the
local station-name matcher (`pick_station_local` in `src/stations.rs`) and of
the price cache (`PriceCache` in `src/cache/service.rs`, `CacheEntry` in
`src/cache/models.rs`), with theorems settling the specified properties.

Machine integers (`u8`, `u32`, `i32`, `usize`) are embedded as `Nat`/`Int`:
none of the embedded operations perform arithmetic that could overflow.
Strings are Lean `String`s; Rust's byte-wise `&str` ordering coincides with
`String`'s character-wise lexicographic order because UTF-8 byte order agrees
with code-point order.  The ambient current date (`chrono::Local::now`) is
passed to each operation as an explicit `Date` parameter.
-/

/-! ### Decimal digit strings

`toDigitsCore` mirrors the decimal rendering performed by Rust's
`format!("{}", n)`; the fuel argument makes the recursion structural.
-/

def toDigitsCore (fuel n : Nat) : List Char :=
  match fuel with
  | 0 => []
  | fuel + 1 =>
    if n < 10 then [Nat.digitChar n]
    else toDigitsCore fuel (n / 10) ++ [Nat.digitChar (n % 10)]

/-- Decimal rendering of a natural number, as Rust `format!("{}", n)` does. -/
def natRepr (n : Nat) : String :=
  ⟨toDigitsCore (n + 1) n⟩

/-- Decimal rendering of a signed integer, as Rust `format!("{}", i)` does. -/
def intRepr (i : Int) : String :=
  if i < 0 then "-" ++ natRepr (-i).toNat else natRepr i.toNat

/-- Numeric value of a list of decimal digit characters (most significant first). -/
def digitsVal (l : List Char) : Nat :=
  l.foldl (fun a c => 10 * a + (c.toNat - 48)) 0

/-- Take at most `k` leading decimal digits of a character list. -/
def takeDigitsUpTo (k : Nat) (l : List Char) : List Char × List Char :=
  match k, l with
  | 0, l => ([], l)
  | _ + 1, [] => ([], [])
  | k + 1, c :: cs =>
    if c.isDigit then
      let (d, r) := takeDigitsUpTo k cs
      (c :: d, r)
    else ([], c :: cs)

/-! ### Calendar dates

`Date` embeds `chrono::NaiveDate`; ordering on valid dates is lexicographic
on (year, month, day).  `parseDate` embeds
`NaiveDate::parse_from_str(s, "%Y-%m-%d")`: an optionally signed year (at
most four digits when unsigned), a literal `-`, a month of at most two
digits, a literal `-`, a day of at most two digits, no trailing input, and
the triple must denote a real proleptic-Gregorian calendar date in chrono's
representable year range.  Leading whitespace is skipped before each numeric
field (chrono trims with `s.trim_start()` in the numeric-item arm), but not
before literals and not after the last field.
-/

structure Date where
  year : Int
  month : Nat
  day : Nat
deriving DecidableEq, Repr

/-- Strict chronological order on dates: lexicographic on (year, month, day). -/
def Date.before (a b : Date) : Bool :=
  decide (a.year < b.year) ||
    (decide (a.year = b.year) &&
      (decide (a.month < b.month) ||
        (decide (a.month = b.month) && decide (a.day < b.day))))

def isLeapYear (y : Int) : Bool :=
  decide (y % 4 = 0) && (decide (¬ y % 100 = 0) || decide (y % 400 = 0))

def daysInMonth (y : Int) (m : Nat) : Nat :=
  if m = 2 then (if isLeapYear y then 29 else 28)
  else if m = 4 ∨ m = 6 ∨ m = 9 ∨ m = 11 then 30
  else 31

def validDate (y : Int) (m d : Nat) : Bool :=
  decide (-262144 ≤ y) && decide (y ≤ 262143) &&
    decide (1 ≤ m) && decide (m ≤ 12) &&
    decide (1 ≤ d) && decide (d ≤ daysInMonth y m)

/-- The Unicode White_Space property, as Rust's `str::trim_start` (and hence
`char::is_whitespace`) recognises it: U+0009..U+000D, U+0020, U+0085, U+00A0,
U+1680, U+2000..U+200A, U+2028, U+2029, U+202F, U+205F, U+3000. -/
def isRustWhitespace (c : Char) : Bool :=
  (decide (9 ≤ c.toNat) && decide (c.toNat ≤ 13)) || decide (c.toNat = 32) ||
    decide (c.toNat = 133) || decide (c.toNat = 160) || decide (c.toNat = 5760) ||
    (decide (8192 ≤ c.toNat) && decide (c.toNat ≤ 8202)) ||
    decide (c.toNat = 8232) || decide (c.toNat = 8233) || decide (c.toNat = 8239) ||
    decide (c.toNat = 8287) || decide (c.toNat = 12288)

/-- Drop leading whitespace, as chrono's numeric-field arm does with
`s.trim_start()` before scanning each numeric field. -/
def skipWhite : List Char → List Char
  | [] => []
  | c :: cs => if isRustWhitespace c then skipWhite cs else c :: cs

/-- Parse an optionally signed year, first skipping leading whitespace as
chrono does before every numeric field; unsigned years take at most four
digits, signed ones are unbounded, as in chrono's numeric-field scanner. -/
def parseSignedYear (l : List Char) : Option (Int × List Char) :=
  match skipWhite l with
  | [] => none
  | c :: rest =>
    if c = '-' then
      let (yds, r) := takeDigitsUpTo rest.length rest
      if yds.isEmpty then none else some (-(digitsVal yds : Int), r)
    else if c = '+' then
      let (yds, r) := takeDigitsUpTo rest.length rest
      if yds.isEmpty then none else some ((digitsVal yds : Int), r)
    else
      let (yds, r) := takeDigitsUpTo 4 (c :: rest)
      if yds.isEmpty then none else some ((digitsVal yds : Int), r)

def expectDash (l : List Char) : Option (List Char) :=
  match l with
  | [] => none
  | c :: rest => if c = '-' then some rest else none

/-- Parse an unsigned one- or two-digit numeric field (month or day), first
skipping leading whitespace as chrono does before every numeric field. -/
def parse2 (l : List Char) : Option (Nat × List Char) :=
  let (ds, r) := takeDigitsUpTo 2 (skipWhite l)
  if ds.isEmpty then none else some (digitsVal ds, r)

/-- Embedding of `chrono::NaiveDate::parse_from_str(s, "%Y-%m-%d")`. -/
def parseDate (s : String) : Option Date :=
  match parseSignedYear s.data with
  | none => none
  | some (y, r1) =>
    match expectDash r1 with
    | none => none
    | some r2 =>
      match parse2 r2 with
      | none => none
      | some (m, r3) =>
        match expectDash r3 with
        | none => none
        | some r4 =>
          match parse2 r4 with
          | none => none
          | some (d, r5) =>
            if r5 = [] then
              if validDate y m d then some ⟨y, m, d⟩ else none
            else none

/-- `today` is a genuine calendar date. -/
def Date.valid (d : Date) : Prop :=
  validDate d.year d.month d.day = true

instance (d : Date) : Decidable d.valid := by
  unfold Date.valid; infer_instance

/-! ### Station matcher: `pick_station_local` (src/stations.rs)

The static table `crate::constants::STATIONS` is a compiled-in constant list
of `(display name, uic code)` pairs; the lookup algorithm is embedded as a
function of that table.  The three outcomes of `pick_station_local` (an `Ok`
station, the "no stations found" error and the "multiple stations matched"
error carrying the printed candidate list) are embedded as `LookupResult`.
-/

/-- Per-character lowercasing, embedding Rust's `str::to_lowercase` (every
station name and query character of interest is ASCII, where Rust's full
Unicode lowercasing coincides with the character map). -/
def strLower (s : String) : String :=
  ⟨s.data.map Char.toLower⟩

/-- Substring containment on character lists, embedding Rust's
`str::contains`: `containsSub needle hay` is true iff `needle` occurs
contiguously in `hay`. -/
def containsSub (needle : List Char) : List Char → Bool
  | [] => needle.isEmpty
  | c :: t => needle.isPrefixOf (c :: t) || containsSub needle t

inductive LookupResult where
  | single (name : String) (code : Int)
  | noMatch
  | multiple (candidates : List (String × Int))
deriving DecidableEq, Repr

/-- Embedding of `pick_station_local` from `src/stations.rs`, parameterised by
the static station table. -/
def pick_station_local (table : List (String × Int)) (query : String) : LookupResult :=
  let q := strLower query
  match table.find? (fun p => strLower p.1 == q) with
  | some (name, code) => .single name code
  | none =>
    match table.filter (fun p => containsSub q.data (strLower p.1).data) with
    | [] => .noMatch
    | [(name, code)] => .single name code
    | ms => .multiple ms

/-! ### Price cache (src/cache/models.rs, src/cache/service.rs)

The `HashMap<String, CacheEntry>` is embedded as an association list with
insert-overwrite semantics (`storeInsert`); order of entries is irrelevant to
every embedded operation.  The backing JSON file is embedded as the `disk`
field holding the mapping last written by `save` — `save` rewrites the whole
file from the in-memory mapping.  Lock poisoning and I/O failure of `save`
are outside the embedding (single-threaded semantics, writes succeed).
-/

/-- Lexicographic order on character lists; agrees with Rust's byte-wise
`&str` comparison because UTF-8 byte order agrees with code-point order. -/
def charListLt : List Char → List Char → Bool
  | _, [] => false
  | [], _ :: _ => true
  | a :: as, b :: bs =>
    if a < b then true
    else if b < a then false
    else charListLt as bs

/-- Embedding of Rust's `from < to` on `&str`. -/
def strLt (f t : String) : Bool := charListLt f.data t.data

structure CacheEntry where
  price_cents : Nat
  travel_class : Nat
  expires_at : String
deriving DecidableEq, Repr

/-- Embedding of `CacheEntry::next_january_first`: the current year plus one,
formatted as `"{}-01-01"`. -/
def nextJanuaryFirst (today : Date) : String :=
  intRepr (today.year + 1) ++ "-01-01"

/-- Embedding of `CacheEntry::new`. -/
def CacheEntry.new (price_cents travel_class : Nat) (today : Date) : CacheEntry :=
  { price_cents := price_cents, travel_class := travel_class,
    expires_at := nextJanuaryFirst today }

/-- Embedding of `CacheEntry::is_expired`: expired iff `now >= expiry_date`,
and an unparseable `expires_at` counts as expired. -/
def CacheEntry.isExpired (e : CacheEntry) (today : Date) : Bool :=
  match parseDate e.expires_at with
  | some expiryDate => !(today.before expiryDate)
  | none => true

abbrev Store := List (String × CacheEntry)

def storeFind (s : Store) (k : String) : Option CacheEntry :=
  match List.find? (fun p => p.1 == k) s with
  | some p => some p.2
  | none => none

/-- `HashMap::insert`: overwrite the entry at the key if present, else add it. -/
def storeInsert (s : Store) (k : String) (e : CacheEntry) : Store :=
  match s with
  | [] => [(k, e)]
  | p :: rest => if p.1 == k then (k, e) :: rest else p :: storeInsert rest k e

structure PriceCache where
  path : String
  entries : Store
  disk : Store
deriving DecidableEq

/-- Embedding of `PriceCache::normalize_key`: sort the two names, join with
`"-"`, append the class. -/
def PriceCache.normalize_key (f t : String) (travel_class : Nat) : String :=
  let (first, second) := if strLt f t then (f, t) else (t, f)
  first ++ "-" ++ second ++ "-" ++ natRepr travel_class

/-- Embedding of `PriceCache::save`: rewrite the whole backing file from the
in-memory mapping. -/
def PriceCache.save (c : PriceCache) : PriceCache :=
  { c with disk := c.entries }

/-- Embedding of `PriceCache::get`. -/
def PriceCache.get (c : PriceCache) (f t : String) (travel_class : Nat)
    (today : Date) : Option Nat :=
  let key := PriceCache.normalize_key f t travel_class
  match storeFind c.entries key with
  | some entry => if entry.isExpired today then none else some entry.price_cents
  | none => none

/-- Embedding of `PriceCache::set`. -/
def PriceCache.set (c : PriceCache) (f t : String) (travel_class price_cents : Nat)
    (today : Date) : PriceCache :=
  let key := PriceCache.normalize_key f t travel_class
  let entry := CacheEntry.new price_cents travel_class today
  PriceCache.save { c with entries := storeInsert c.entries key entry }

structure CacheStats where
  total_entries : Nat
  valid_entries : Nat
  expired_entries : Nat
deriving DecidableEq, Repr

/-- Embedding of `PriceCache::stats`. -/
def PriceCache.stats (c : PriceCache) (today : Date) : CacheStats :=
  let total := c.entries.length
  let expired := (c.entries.filter (fun p => p.2.isExpired today)).length
  { total_entries := total, valid_entries := total - expired,
    expired_entries := expired }

/-- Embedding of `PriceCache::cleanup`: retain the unexpired entries, and
persist exactly when something was removed. -/
def PriceCache.cleanup (c : PriceCache) (today : Date) : Nat × PriceCache :=
  let kept := c.entries.filter (fun p => !(p.2.isExpired today))
  let removed := c.entries.length - kept.length
  let c' := { c with entries := kept }
  if removed > 0 then (removed, c'.save) else (removed, c')

/-- Outcome of `PriceCache::new`: a cache, or a propagated I/O error. -/
inductive NewResult where
  | ok (c : PriceCache)
  | ioError
deriving DecidableEq

/-- State of the backing file as `PriceCache::new` finds it. -/
inductive DiskState where
  | found (content : String)
  | absentDirOk
  | absentDirFail
  | readError

/-- Embedding of `PriceCache::new`, parameterised by the JSON deserialiser
for the mapping (`serde_json::from_str`): on a successful read whose content
fails to parse, a warning is printed and the cache starts empty; a read or
directory-creation failure is propagated. -/
def PriceCache.new (parse : String → Option Store) (path : String)
    (disk : DiskState) : NewResult :=
  match disk with
  | .found content =>
    match parse content with
    | some entries => .ok { path := path, entries := entries, disk := entries }
    | none => .ok { path := path, entries := [], disk := [] }
  | .absentDirOk => .ok { path := path, entries := [], disk := [] }
  | .absentDirFail => .ioError
  | .readError => .ioError

/-! ### Lemmas about decimal digit strings -/

theorem digitChar_isDigit {d : Nat} (h : d < 10) : (Nat.digitChar d).isDigit = true := by
  interval_cases d <;> decide

theorem digitChar_val {d : Nat} (h : d < 10) : (Nat.digitChar d).toNat - 48 = d := by
  interval_cases d <;> decide

theorem digitsVal_append_singleton (l : List Char) (c : Char) :
    digitsVal (l ++ [c]) = 10 * digitsVal l + (c.toNat - 48) := by
  simp [digitsVal, List.foldl_append]

theorem toDigitsCore_spec :
    ∀ fuel n, 0 < fuel → n < 10 ^ fuel →
      toDigitsCore fuel n ≠ [] ∧
      (∀ c ∈ toDigitsCore fuel n, c.isDigit = true) ∧
      digitsVal (toDigitsCore fuel n) = n ∧
      (toDigitsCore fuel n).length ≤ fuel := by
  intro fuel
  induction fuel with
  | zero => intro n h; omega
  | succ f ih =>
    intro n _ hlt
    by_cases hn : n < 10
    · refine ⟨by simp [toDigitsCore, hn], ?_, ?_, ?_⟩
      · simp only [toDigitsCore, if_pos hn]
        intro c hc
        simp only [List.mem_singleton] at hc
        subst hc
        exact digitChar_isDigit hn
      · simp [toDigitsCore, if_pos hn, digitsVal, digitChar_val hn]
      · simp [toDigitsCore, if_pos hn]
    · have hf : 0 < f := by
        rcases Nat.eq_zero_or_pos f with rfl | h
        · simp at hlt; omega
        · exact h
      have hdiv : n / 10 < 10 ^ f := by
        have h10 : n < 10 * 10 ^ f := by
          rw [pow_succ, Nat.mul_comm] at hlt
          exact hlt
        exact Nat.div_lt_of_lt_mul h10
      obtain ⟨hne, hdig, hval, hlen⟩ := ih (n / 10) hf hdiv
      have hmod : n % 10 < 10 := Nat.mod_lt _ (by norm_num)
      refine ⟨?_, ?_, ?_, ?_⟩
      · simp [toDigitsCore, if_neg hn]
      · simp only [toDigitsCore, if_neg hn]
        intro c hc
        rcases List.mem_append.mp hc with h | h
        · exact hdig c h
        · simp only [List.mem_singleton] at h
          subst h
          exact digitChar_isDigit hmod
      · simp only [toDigitsCore, if_neg hn]
        rw [digitsVal_append_singleton, hval, digitChar_val hmod]
        omega
      · simp only [toDigitsCore, if_neg hn, List.length_append, List.length_singleton]
        omega

theorem toDigitsCore_fuel_irrel :
    ∀ f₁ f₂ n, 0 < f₁ → 0 < f₂ → n < 10 ^ f₁ → n < 10 ^ f₂ →
      toDigitsCore f₁ n = toDigitsCore f₂ n := by
  intro f₁
  induction f₁ with
  | zero => intro f₂ n h; omega
  | succ a ih =>
    intro f₂ n _ hf₂ h₁ h₂
    cases f₂ with
    | zero => omega
    | succ b =>
      by_cases hn : n < 10
      · simp [toDigitsCore, if_pos hn]
      · have ha : 0 < a := by
          rcases Nat.eq_zero_or_pos a with rfl | h
          · simp at h₁; omega
          · exact h
        have hb : 0 < b := by
          rcases Nat.eq_zero_or_pos b with rfl | h
          · simp at h₂; omega
          · exact h
        have hda : n / 10 < 10 ^ a :=
          Nat.div_lt_of_lt_mul (by rw [pow_succ, Nat.mul_comm] at h₁; exact h₁)
        have hdb : n / 10 < 10 ^ b :=
          Nat.div_lt_of_lt_mul (by rw [pow_succ, Nat.mul_comm] at h₂; exact h₂)
        simp only [toDigitsCore, if_neg hn]
        rw [ih b (n / 10) ha hb hda hdb]

theorem lt_ten_pow_succ (n : Nat) : n < 10 ^ (n + 1) :=
  lt_of_lt_of_le (Nat.lt_pow_self (by norm_num) n)
    (Nat.pow_le_pow_right (by norm_num) (Nat.le_succ n))

theorem natRepr_data (n : Nat) : (natRepr n).data = toDigitsCore (n + 1) n := rfl

theorem natRepr_ne_nil (n : Nat) : (natRepr n).data ≠ [] :=
  (toDigitsCore_spec (n + 1) n (Nat.succ_pos n) (lt_ten_pow_succ n)).1

theorem natRepr_digits (n : Nat) : ∀ c ∈ (natRepr n).data, c.isDigit = true :=
  (toDigitsCore_spec (n + 1) n (Nat.succ_pos n) (lt_ten_pow_succ n)).2.1

theorem natRepr_val (n : Nat) : digitsVal (natRepr n).data = n :=
  (toDigitsCore_spec (n + 1) n (Nat.succ_pos n) (lt_ten_pow_succ n)).2.2.1

theorem natRepr_length_le_four {n : Nat} (h : n ≤ 9999) :
    (natRepr n).data.length ≤ 4 := by
  have heq : (natRepr n).data = toDigitsCore 4 n := by
    rw [natRepr_data]
    exact toDigitsCore_fuel_irrel (n + 1) 4 n (Nat.succ_pos n) (by norm_num)
      (lt_ten_pow_succ n) (by norm_num; omega)
  rw [heq]
  exact (toDigitsCore_spec 4 n (by norm_num) (by norm_num; omega)).2.2.2

theorem toDigitsCore_shape :
    ∀ fuel n, ∀ c ∈ toDigitsCore fuel n, ∃ d, d < 10 ∧ c = Nat.digitChar d := by
  intro fuel
  induction fuel with
  | zero => intro n c hc; simp [toDigitsCore] at hc
  | succ f ih =>
    intro n c hc
    by_cases hn : n < 10
    · simp only [toDigitsCore, if_pos hn, List.mem_singleton] at hc
      exact ⟨n, hn, hc⟩
    · simp only [toDigitsCore, if_neg hn] at hc
      rcases List.mem_append.mp hc with h | h
      · exact ih (n / 10) c h
      · simp only [List.mem_singleton] at h
        exact ⟨n % 10, Nat.mod_lt _ (by norm_num), h⟩

theorem digitChar_not_white {d : Nat} (h : d < 10) :
    isRustWhitespace (Nat.digitChar d) = false := by
  interval_cases d <;> decide

theorem natRepr_not_white (n : Nat) :
    ∀ c ∈ (natRepr n).data, isRustWhitespace c = false := by
  intro c hc
  obtain ⟨d, hd, rfl⟩ := toDigitsCore_shape (n + 1) n c hc
  exact digitChar_not_white hd

/-! ### Lemmas about the date parser -/

theorem skipWhite_cons_of_not_white {c : Char} (cs : List Char)
    (h : isRustWhitespace c = false) : skipWhite (c :: cs) = c :: cs := by
  simp [skipWhite, h]

theorem takeDigitsUpTo_exact :
    ∀ (ds : List Char) (rest : List Char) (k : Nat),
      (∀ c ∈ ds, c.isDigit = true) → ds.length ≤ k →
      (∀ c, rest.head? = some c → c.isDigit = false) →
      takeDigitsUpTo k (ds ++ rest) = (ds, rest) := by
  intro ds
  induction ds with
  | nil =>
    intro rest k _ _ hrest
    cases k with
    | zero => simp [takeDigitsUpTo]
    | succ k' =>
      cases rest with
      | nil => simp [takeDigitsUpTo]
      | cons c cs =>
        have : c.isDigit = false := hrest c rfl
        simp [takeDigitsUpTo, this]
  | cons d ds' ih =>
    intro rest k hdig hlen hrest
    cases k with
    | zero => simp at hlen
    | succ k' =>
      have hd : d.isDigit = true := hdig d (by simp)
      have hrec := ih rest k' (fun c hc => hdig c (by simp [hc])) (by simpa using hlen) hrest
      simp [takeDigitsUpTo, hd, hrec]

theorem isDigit_ne_dash {c : Char} (h : c.isDigit = true) : ¬ c = '-' := by
  rintro rfl; exact absurd h (by decide)

theorem isDigit_ne_plus {c : Char} (h : c.isDigit = true) : ¬ c = '+' := by
  rintro rfl; exact absurd h (by decide)

theorem parseSignedYear_digits (ds rest : List Char)
    (hne : ds ≠ []) (hdig : ∀ c ∈ ds, c.isDigit = true) (hlen : ds.length ≤ 4)
    (hnw : ∀ c ∈ ds, isRustWhitespace c = false)
    (hrest : ∀ c, rest.head? = some c → c.isDigit = false) :
    parseSignedYear (ds ++ rest) = some ((digitsVal ds : Int), rest) := by
  obtain ⟨d, ds', rfl⟩ : ∃ d ds', ds = d :: ds' := by
    cases ds with
    | nil => exact absurd rfl hne
    | cons a t => exact ⟨a, t, rfl⟩
  have hd : d.isDigit = true := hdig d (by simp)
  have hskip : skipWhite ((d :: ds') ++ rest) = (d :: ds') ++ rest :=
    skipWhite_cons_of_not_white _ (hnw d (by simp))
  have htake : takeDigitsUpTo 4 ((d :: ds') ++ rest) = (d :: ds', rest) :=
    takeDigitsUpTo_exact (d :: ds') rest 4 hdig hlen hrest
  simp only [List.cons_append] at hskip htake ⊢
  simp [parseSignedYear, hskip, isDigit_ne_dash hd, isDigit_ne_plus hd, htake]

theorem daysInMonth_january (y : Int) : daysInMonth y 1 = 31 := by
  simp [daysInMonth]

theorem validDate_january_first {y : Int} (h1 : -262144 ≤ y) (h2 : y ≤ 262143) :
    validDate y 1 1 = true := by
  simp only [validDate, daysInMonth_january, Bool.and_eq_true, decide_eq_true_eq]
  omega

theorem parseDate_roundtrip_jan (y : Nat) (h1 : 1 ≤ y) (h2 : y ≤ 9999) :
    parseDate (natRepr y ++ "-01-01") = some ⟨(y : Int), 1, 1⟩ := by
  have hdata : (natRepr y ++ "-01-01").data
      = (natRepr y).data ++ ('-' :: '0' :: '1' :: '-' :: '0' :: '1' :: []) := by
    simp [String.data_append]
  have hyear : parseSignedYear ((natRepr y).data
      ++ ('-' :: '0' :: '1' :: '-' :: '0' :: '1' :: []))
      = some ((y : Int), '-' :: '0' :: '1' :: '-' :: '0' :: '1' :: []) := by
    have := parseSignedYear_digits (natRepr y).data
      ('-' :: '0' :: '1' :: '-' :: '0' :: '1' :: [])
      (natRepr_ne_nil y) (natRepr_digits y) (natRepr_length_le_four h2)
      (natRepr_not_white y)
      (by intro c hc; simp at hc; subst hc; decide)
    rw [this, natRepr_val]
  have hmonth : parse2 ('0' :: '1' :: '-' :: '0' :: '1' :: [])
      = some (1, '-' :: '0' :: '1' :: []) := by decide
  have hday : parse2 ('0' :: '1' :: []) = some (1, []) := by decide
  have hvd : validDate (y : Int) 1 1 = true :=
    validDate_january_first (by omega) (by omega)
  simp only [parseDate, hdata, hyear]
  simp [expectDash, hmonth, hday, hvd]

/-! ### Lemmas about the cache key and store -/

theorem natRepr_one : natRepr 1 = "1" := by decide

theorem natRepr_two : natRepr 2 = "2" := by decide

theorem charListLt_asymm : ∀ l₁ l₂ : List Char,
    charListLt l₁ l₂ = true → charListLt l₂ l₁ = false := by
  intro l₁
  induction l₁ with
  | nil =>
    intro l₂ h
    cases l₂ with
    | nil => simp [charListLt] at h
    | cons b bs => rfl
  | cons a as ih =>
    intro l₂ h
    cases l₂ with
    | nil => simp [charListLt] at h
    | cons b bs =>
      by_cases hab : a < b
      · simp [charListLt, hab, asymm hab]
      · by_cases hba : b < a
        · simp [charListLt, hab, hba] at h
        · have heq : a = b := le_antisymm (not_lt.mp hba) (not_lt.mp hab)
          subst heq
          simp only [charListLt, lt_irrefl, if_false] at h ⊢
          exact ih bs h

theorem charListLt_antisymm : ∀ l₁ l₂ : List Char,
    charListLt l₁ l₂ = false → charListLt l₂ l₁ = false → l₁ = l₂ := by
  intro l₁
  induction l₁ with
  | nil =>
    intro l₂ h1 _
    cases l₂ with
    | nil => rfl
    | cons b bs => simp [charListLt] at h1
  | cons a as ih =>
    intro l₂ h1 h2
    cases l₂ with
    | nil => simp [charListLt] at h2
    | cons b bs =>
      by_cases hab : a < b
      · simp [charListLt, hab] at h1
      · by_cases hba : b < a
        · simp [charListLt, hba] at h2
        · have heq : a = b := le_antisymm (not_lt.mp hba) (not_lt.mp hab)
          subst heq
          simp only [charListLt, lt_irrefl, if_false] at h1 h2
          rw [ih bs h1 h2]

theorem strLt_asymm {f t : String} (h : strLt f t = true) : strLt t f = false :=
  charListLt_asymm f.data t.data h

theorem strLt_antisymm {f t : String} (h1 : strLt f t = false)
    (h2 : strLt t f = false) : f = t := by
  cases f
  cases t
  exact congrArg String.mk (charListLt_antisymm _ _ h1 h2)

theorem normalize_key_comm (f t : String) (c : Nat) :
    PriceCache.normalize_key f t c = PriceCache.normalize_key t f c := by
  by_cases h : strLt f t = true
  · simp [PriceCache.normalize_key, h, strLt_asymm h]
  · by_cases h2 : strLt t f = true
    · simp [PriceCache.normalize_key, h2, strLt_asymm h2]
    · have hf : strLt f t = false := by revert h; cases strLt f t <;> simp
      have ht : strLt t f = false := by revert h2; cases strLt t f <;> simp
      rw [strLt_antisymm hf ht]

theorem append_last_char_ne {X Y : List Char} {a b : Char} (hab : a ≠ b) :
    X ++ [a] ≠ Y ++ [b] := by
  intro h
  have hl := congrArg List.getLast? h
  rw [List.getLast?_concat, List.getLast?_concat] at hl
  exact hab (Option.some.inj hl)

theorem normalize_key_class_ne (f t : String) :
    PriceCache.normalize_key f t 1 ≠ PriceCache.normalize_key f t 2 := by
  intro h
  have hd := congrArg String.data h
  simp only [PriceCache.normalize_key, natRepr_one, natRepr_two] at hd
  by_cases hft : strLt f t = true
  · simp only [if_pos hft, String.data_append] at hd
    exact append_last_char_ne (by decide) hd
  · simp only [if_neg hft, String.data_append] at hd
    exact append_last_char_ne (by decide) hd

theorem storeFind_storeInsert (s : Store) (k : String) (e : CacheEntry) :
    storeFind (storeInsert s k e) k = some e := by
  induction s with
  | nil => simp [storeInsert, storeFind, List.find?]
  | cons p rest ih =>
    by_cases hp : p.1 == k
    · simp [storeInsert, hp, storeFind, List.find?]
    · simp only [storeInsert, hp, ite_false, Bool.false_eq_true, if_neg]
      simp only [storeFind, List.find?, hp] at ih ⊢
      exact ih

/-! ### Lemmas about expiry -/

theorem before_next_jan (today : Date) :
    today.before ⟨today.year + 1, 1, 1⟩ = true := by
  have h : decide (today.year < today.year + 1) = true := decide_eq_true (by omega)
  simp [Date.before, h]

theorem new_expires_at (p cls : Nat) (today : Date) (hy0 : 0 ≤ today.year) :
    (CacheEntry.new p cls today).expires_at
      = natRepr (today.year + 1).toNat ++ "-01-01" := by
  show nextJanuaryFirst today = _
  unfold nextJanuaryFirst intRepr
  rw [if_neg (by omega)]

theorem parseDate_new_expires_at (p cls : Nat) (today : Date)
    (hy0 : 0 ≤ today.year) (hy : today.year ≤ 9998) :
    parseDate (CacheEntry.new p cls today).expires_at
      = some ⟨today.year + 1, 1, 1⟩ := by
  rw [new_expires_at p cls today hy0]
  have h1 : 1 ≤ (today.year + 1).toNat := by omega
  have h2 : (today.year + 1).toNat ≤ 9999 := by omega
  rw [parseDate_roundtrip_jan _ h1 h2]
  congr 1
  have : ((today.year + 1).toNat : Int) = today.year + 1 := Int.toNat_of_nonneg (by omega)
  simp [this]

theorem isExpired_new_false (p cls : Nat) (today : Date)
    (hy0 : 0 ≤ today.year) (hy : today.year ≤ 9998) :
    (CacheEntry.new p cls today).isExpired today = false := by
  unfold CacheEntry.isExpired
  rw [parseDate_new_expires_at p cls today hy0 hy]
  simp [before_next_jan]

theorem isExpired_eq_false_iff (e : CacheEntry) (today : Date) :
    e.isExpired today = false ↔
      ∃ d, parseDate e.expires_at = some d ∧ today.before d = true := by
  unfold CacheEntry.isExpired
  cases hp : parseDate e.expires_at with
  | none => simp
  | some d => simp

/-! ### Claim theorems -/

/-- C1: for every query whose lower-cased form equals the lower-cased display
name of exactly one table entry, `pick_station_local` returns `Single` with
that entry, taking priority over any substring matches (no hypothesis about
substring matches is needed: the exact pass short-circuits first). -/
theorem pick_station_local_exact (table : List (String × Int)) (q : String)
    (e : String × Int) (he : e ∈ table) (hexact : strLower e.1 = strLower q)
    (huniq : ∀ e' ∈ table, strLower e'.1 = strLower q → e' = e) :
    pick_station_local table q = .single e.1 e.2 := by
  have hsome : (table.find? (fun p => strLower p.1 == strLower q)).isSome := by
    rw [List.find?_isSome]
    exact ⟨e, he, by simp [hexact]⟩
  obtain ⟨a, ha⟩ := Option.isSome_iff_exists.mp hsome
  have hmem := List.mem_of_find?_eq_some ha
  have hpa : strLower a.1 = strLower q := by
    have := List.find?_some ha
    simpa using this
  have hae : a = e := huniq a hmem hpa
  subst hae
  obtain ⟨n, c⟩ := a
  simp only [pick_station_local, ha]

/-- Witness for C1 at the spec's example table: the query
`"AMSTERDAM CENTRAAL"` exactly matches `("Amsterdam Centraal", 8400058)`
case-insensitively, and is also a substring of no other entry name needed —
the exact pass returns `Single` directly. -/
theorem pick_station_local_exact_witness :
    (("Amsterdam Centraal", (8400058 : Int))
        ∈ [("Amsterdam Centraal", (8400058 : Int)), ("Amsterdam Sloterdijk", 8400054)]) ∧
    pick_station_local
        [("Amsterdam Centraal", (8400058 : Int)), ("Amsterdam Sloterdijk", 8400054)]
        "AMSTERDAM CENTRAAL"
      = .single "Amsterdam Centraal" 8400058 :=
  ⟨by decide,
    pick_station_local_exact
      [("Amsterdam Centraal", (8400058 : Int)), ("Amsterdam Sloterdijk", 8400054)]
      "AMSTERDAM CENTRAAL" ("Amsterdam Centraal", (8400058 : Int))
      (by decide) (by decide) (by decide)⟩

/-- C2: with no exact (case-insensitive) match, `pick_station_local`
classifies by the number of entries whose lower-cased name contains the
lower-cased query as a substring: 0 matches give `noMatch`, exactly 1 gives
`Single` with that entry, and 2 or more give `Multiple` with the full
candidate list in table order. -/
theorem pick_station_local_substring (table : List (String × Int)) (q : String)
    (hnoexact : ∀ e ∈ table, strLower e.1 ≠ strLower q) :
    (table.filter (fun p => containsSub (strLower q).data (strLower p.1).data) = [] →
      pick_station_local table q = .noMatch) ∧
    (∀ e, table.filter (fun p => containsSub (strLower q).data (strLower p.1).data) = [e] →
      pick_station_local table q = .single e.1 e.2) ∧
    (2 ≤ (table.filter (fun p => containsSub (strLower q).data (strLower p.1).data)).length →
      pick_station_local table q
        = .multiple (table.filter (fun p => containsSub (strLower q).data (strLower p.1).data))) := by
  have hnone : table.find? (fun p => strLower p.1 == strLower q) = none := by
    rw [List.find?_eq_none]
    intro x hx
    simpa using hnoexact x hx
  refine ⟨?_, ?_, ?_⟩
  · intro h
    simp only [pick_station_local, hnone, h]
  · rintro ⟨n, c⟩ h
    simp only [pick_station_local, hnone, h]
  · intro h
    rcases hms : table.filter (fun p => containsSub (strLower q).data (strLower p.1).data) with
      _ | ⟨a, _ | ⟨b, tl⟩⟩
    · rw [hms] at h; simp at h
    · rw [hms] at h; simp at h
    · simp only [pick_station_local, hnone, hms]

/-- Witness for C2 at the spec's example table: `"amsterdam"` has no exact
match and substring-matches both entries, so the result is `Multiple` of both
in table order. -/
theorem pick_station_local_substring_witness :
    (2 ≤ ([("Amsterdam Centraal", (8400058 : Int)), ("Amsterdam Sloterdijk", 8400054)].filter
        (fun p => containsSub (strLower "amsterdam").data (strLower p.1).data)).length) ∧
    pick_station_local
        [("Amsterdam Centraal", (8400058 : Int)), ("Amsterdam Sloterdijk", 8400054)]
        "amsterdam"
      = .multiple [("Amsterdam Centraal", 8400058), ("Amsterdam Sloterdijk", 8400054)] :=
  ⟨by decide, by
    have h := (pick_station_local_substring
      [("Amsterdam Centraal", (8400058 : Int)), ("Amsterdam Sloterdijk", 8400054)]
      "amsterdam" (by decide)).2.2 (by decide)
    exact h.trans (congrArg LookupResult.multiple (by decide))⟩

/-- C3: `set(A, B, c, P)` followed immediately by `get(A, B, c)` returns
`Some(P)`, and `get(B, A, c)` returns `Some(P)` too (the key is
order-independent).  The ambient date must be a representable year for which
chrono's next-January-1st string parses back (0 ≤ year ≤ 9998). -/
theorem set_get_roundtrip (c : PriceCache) (A B : String) (cls P : Nat)
    (today : Date) (hy0 : 0 ≤ today.year) (hy : today.year ≤ 9998) :
    (c.set A B cls P today).get A B cls today = some P ∧
    (c.set A B cls P today).get B A cls today = some P := by
  have hexp := isExpired_new_false P cls today hy0 hy
  unfold CacheEntry.new at hexp
  constructor
  · simp [PriceCache.set, PriceCache.get, PriceCache.save, storeFind_storeInsert, hexp,
      CacheEntry.new]
  · simp only [PriceCache.get, normalize_key_comm B A cls]
    simp [PriceCache.set, PriceCache.save, storeFind_storeInsert, hexp, CacheEntry.new]

/-- Witness for C3: storing 940 cents for Amsterdam–Utrecht in class 2 on
2026-10-12 and reading it back in both directions yields `some 940`. -/
theorem set_get_roundtrip_witness :
    ((0 : Int) ≤ (⟨2026, 10, 12⟩ : Date).year ∧ (⟨2026, 10, 12⟩ : Date).year ≤ 9998) ∧
    ((PriceCache.set ⟨"cache.json", [], []⟩ "Amsterdam" "Utrecht" 2 940 ⟨2026, 10, 12⟩).get
        "Amsterdam" "Utrecht" 2 ⟨2026, 10, 12⟩ = some 940 ∧
      (PriceCache.set ⟨"cache.json", [], []⟩ "Amsterdam" "Utrecht" 2 940 ⟨2026, 10, 12⟩).get
        "Utrecht" "Amsterdam" 2 ⟨2026, 10, 12⟩ = some 940) :=
  ⟨⟨by decide, by decide⟩,
    set_get_roundtrip ⟨"cache.json", [], []⟩ "Amsterdam" "Utrecht" 2 940 ⟨2026, 10, 12⟩
      (by decide) (by decide)⟩

/-- C4: the normalized cache key is order-independent in the station pair,
and the travel class 1 and 2 keys always differ. -/
theorem normalize_key_symm_and_class :
    (∀ (A B : String) (c : Nat),
      PriceCache.normalize_key A B c = PriceCache.normalize_key B A c) ∧
    (∀ A B : String,
      PriceCache.normalize_key A B 1 ≠ PriceCache.normalize_key A B 2) :=
  ⟨normalize_key_comm, normalize_key_class_ne⟩

/-- Witness for C4 at the values of the repository's own unit test. -/
theorem normalize_key_symm_and_class_witness :
    PriceCache.normalize_key "Amsterdam" "Utrecht" 2
        = PriceCache.normalize_key "Utrecht" "Amsterdam" 2 ∧
    PriceCache.normalize_key "Amsterdam" "Utrecht" 1
        ≠ PriceCache.normalize_key "Amsterdam" "Utrecht" 2 :=
  ⟨normalize_key_symm_and_class.1 "Amsterdam" "Utrecht" 2,
    normalize_key_symm_and_class.2 "Amsterdam" "Utrecht"⟩

theorem length_filter_split {α : Type} (p : α → Bool) (l : List α) :
    (l.filter p).length + (l.filter (fun x => !(p x))).length = l.length := by
  induction l with
  | nil => rfl
  | cons a t ih =>
    by_cases h : p a <;> simp [List.filter_cons, h, ← ih] <;> omega

/-- C5: `get` returns the stored price exactly when the entry at the
normalized key is present and not expired, where not expired means today is
strictly before the parsed `expires_at` date; in every other case it returns
`none`.  (`get` takes `&self` in the source and the embedding is a pure
function of the cache state, so the mapping is unchanged by `get` by
construction.) -/
theorem get_hit_iff (c : PriceCache) (f t : String) (cls : Nat) (today : Date) :
    (∀ P, c.get f t cls today = some P ↔
      ∃ e, storeFind c.entries (PriceCache.normalize_key f t cls) = some e ∧
        e.isExpired today = false ∧ P = e.price_cents) ∧
    (∀ e : CacheEntry, e.isExpired today = false ↔
      ∃ d, parseDate e.expires_at = some d ∧ today.before d = true) := by
  constructor
  · intro P
    unfold PriceCache.get
    cases hf : storeFind c.entries (PriceCache.normalize_key f t cls) with
    | none => simp [hf]
    | some e =>
      by_cases he : e.isExpired today = true
      · simp [hf, he]
      · simp only [Bool.not_eq_true] at he
        simp [hf, he]
        exact ⟨fun hh => hh.symm, fun hh => hh.symm⟩
  · exact fun e => isExpired_eq_false_iff e today

/-- Witness for C5: a cache holding 940 cents for Amsterdam–Utrecht class 2,
expiring 2027-01-01, read on 2026-10-12. -/
theorem get_hit_iff_witness :
    PriceCache.get
        ⟨"cache.json", [("Amsterdam-Utrecht-2", ⟨940, 2, "2027-01-01"⟩)], []⟩
        "Amsterdam" "Utrecht" 2 ⟨2026, 10, 12⟩ = some 940 :=
  ((get_hit_iff ⟨"cache.json", [("Amsterdam-Utrecht-2", ⟨940, 2, "2027-01-01"⟩)], []⟩
      "Amsterdam" "Utrecht" 2 ⟨2026, 10, 12⟩).1 940).mpr
    ⟨⟨940, 2, "2027-01-01"⟩, by decide, by decide, rfl⟩

/-- The result of `cleanup`, in explicit form. -/
theorem cleanup_eq (c : PriceCache) (today : Date) :
    c.cleanup today =
      (c.entries.length - (c.entries.filter (fun p => !(p.2.isExpired today))).length,
        { path := c.path,
          entries := c.entries.filter (fun p => !(p.2.isExpired today)),
          disk := if 0 < c.entries.length
              - (c.entries.filter (fun p => !(p.2.isExpired today))).length
            then c.entries.filter (fun p => !(p.2.isExpired today)) else c.disk }) := by
  by_cases h : 0 < c.entries.length
      - (c.entries.filter (fun p => !(p.2.isExpired today))).length
  · simp [PriceCache.cleanup, PriceCache.save, h]
  · simp [PriceCache.cleanup, h]

/-- C6: `cleanup` removes exactly the expired entries, returns their count,
and persists (rewrites the backing file) if and only if that count is
positive. -/
theorem cleanup_spec (c : PriceCache) (today : Date) :
    (c.cleanup today).1 = (c.entries.filter (fun p => p.2.isExpired today)).length ∧
    (c.cleanup today).2.entries = c.entries.filter (fun p => !(p.2.isExpired today)) ∧
    (∀ ke : String × CacheEntry, ke ∈ (c.cleanup today).2.entries ↔
      ke ∈ c.entries ∧ ke.2.isExpired today = false) ∧
    (c.cleanup today).2.disk
      = (if 0 < (c.cleanup today).1 then (c.cleanup today).2.entries else c.disk) := by
  have hlen := length_filter_split (fun p : String × CacheEntry => p.2.isExpired today) c.entries
  rw [cleanup_eq]
  refine ⟨?_, rfl, ?_, rfl⟩
  · show c.entries.length - (c.entries.filter (fun p => !(p.2.isExpired today))).length
        = (c.entries.filter (fun p => p.2.isExpired today)).length
    omega
  · intro ke
    show ke ∈ c.entries.filter (fun p => !(p.2.isExpired today)) ↔ _
    simp [List.mem_filter]

/-- C7: every entry created by `set` expires on the January 1st strictly
after the creation date: for a creation date in year Y the stored string is
Y+1 formatted with `-01-01`, it parses to the date (Y+1)-01-01, that date is
strictly after today, and no earlier January 1st is. -/
theorem new_entry_expiry (p cls : Nat) (today : Date)
    (hv : today.valid) (hy0 : 0 ≤ today.year) (hy : today.year ≤ 9998) :
    (CacheEntry.new p cls today).expires_at
        = natRepr (today.year + 1).toNat ++ "-01-01" ∧
    parseDate (CacheEntry.new p cls today).expires_at
        = some ⟨today.year + 1, 1, 1⟩ ∧
    today.before ⟨today.year + 1, 1, 1⟩ = true ∧
    (∀ y : Int, today.before ⟨y, 1, 1⟩ = true → today.year + 1 ≤ y) := by
  refine ⟨new_expires_at p cls today hy0, parseDate_new_expires_at p cls today hy0 hy,
    before_next_jan today, ?_⟩
  intro y hb
  simp only [Date.valid, validDate, Bool.and_eq_true, decide_eq_true_eq] at hv
  simp only [Date.before, Bool.or_eq_true, Bool.and_eq_true, decide_eq_true_eq] at hb
  omega

/-- Witness for C7: an entry created on 2026-10-12 expires on 2027-01-01. -/
theorem new_entry_expiry_witness :
    ((⟨2026, 10, 12⟩ : Date).valid
      ∧ (0 : Int) ≤ (2026 : Int) ∧ (2026 : Int) ≤ 9998) ∧
    (CacheEntry.new 940 2 ⟨2026, 10, 12⟩).expires_at = "2027-01-01" := by
  refine ⟨⟨by decide, by decide, by decide⟩, ?_⟩
  have h := (new_entry_expiry 940 2 ⟨2026, 10, 12⟩ (by decide) (by decide) (by decide)).1
  exact h.trans (by decide)

/-- C8: opening a cache whose existing backing file does not deserialise as
the mapping succeeds with an empty mapping; the parse error is never
propagated. -/
theorem new_corrupt_file_ok (parse : String → Option Store) (path content : String)
    (h : parse content = none) :
    PriceCache.new parse path (.found content)
      = .ok { path := path, entries := [], disk := [] } := by
  simp [PriceCache.new, h]

/-- Witness for C8: a deserialiser rejecting some content still yields an
open, empty cache. -/
theorem new_corrupt_file_ok_witness :
    ((fun _ : String => (none : Option Store)) "definitely not json" = none) ∧
    PriceCache.new (fun _ => none) "cache.json" (.found "definitely not json")
      = .ok { path := "cache.json", entries := [], disk := [] } :=
  ⟨rfl, new_corrupt_file_ok (fun _ => none) "cache.json" "definitely not json" rfl⟩

/-- C9: the normalized key is not injective over unordered station pairs:
the distinct pairs ("a-b", "c") and ("a", "b-c") share a key, and a price
stored for the first pair is returned by `get` for the second. -/
theorem normalize_key_collision :
    PriceCache.normalize_key "a-b" "c" 1 = PriceCache.normalize_key "a" "b-c" 1 ∧
    ¬ (("a-b" = "a" ∧ "c" = "b-c") ∨ ("a-b" = "b-c" ∧ "c" = "a")) ∧
    (PriceCache.set ⟨"cache.json", [], []⟩ "a-b" "c" 1 500 ⟨2026, 10, 12⟩).get
        "a" "b-c" 1 ⟨2026, 10, 12⟩ = some 500 := by
  refine ⟨by decide, by decide, by decide⟩

/-- C10: an entry whose `expires_at` does not parse as a date is treated as
expired by every operation, regardless of today's date: `get` misses it,
`cleanup` removes it, and `stats` counts it as expired. -/
theorem unparseable_expiry_always_expired (e : CacheEntry)
    (h : parseDate e.expires_at = none) (today : Date) (c : PriceCache)
    (f t : String) (cls : Nat) (k : String) :
    e.isExpired today = true ∧
    (storeFind c.entries (PriceCache.normalize_key f t cls) = some e →
      c.get f t cls today = none) ∧
    ((k, e) ∉ (c.cleanup today).2.entries) ∧
    ((k, e) ∈ c.entries → 1 ≤ (c.stats today).expired_entries) := by
  have hexp : e.isExpired today = true := by
    unfold CacheEntry.isExpired
    rw [h]
  refine ⟨hexp, ?_, ?_, ?_⟩
  · intro hf
    unfold PriceCache.get
    simp [hf, hexp]
  · intro hmem
    rw [cleanup_eq] at hmem
    simp [List.mem_filter, hexp] at hmem
  · intro hmem
    have hfmem : (k, e) ∈ c.entries.filter (fun p => p.2.isExpired today) :=
      List.mem_filter.mpr ⟨hmem, hexp⟩
    have : 0 < (c.entries.filter (fun p => p.2.isExpired today)).length :=
      List.length_pos.mpr (List.ne_nil_of_mem hfmem)
    simpa [PriceCache.stats] using this

/-- Witness for C10: an entry with `expires_at = "garbage"` is expired on any
date, missed by `get`, removed by `cleanup`, and counted by `stats`. -/
theorem unparseable_expiry_always_expired_witness :
    (parseDate "garbage" = none) ∧
    (CacheEntry.isExpired ⟨100, 1, "garbage"⟩ ⟨2026, 10, 12⟩ = true ∧
      (storeFind [("a-b-1", ⟨100, 1, "garbage"⟩)] (PriceCache.normalize_key "a" "b" 1)
          = some ⟨100, 1, "garbage"⟩ →
        PriceCache.get ⟨"cache.json", [("a-b-1", ⟨100, 1, "garbage"⟩)], []⟩
          "a" "b" 1 ⟨2026, 10, 12⟩ = none) ∧
      (("a-b-1", (⟨100, 1, "garbage"⟩ : CacheEntry)) ∉
        (PriceCache.cleanup ⟨"cache.json", [("a-b-1", ⟨100, 1, "garbage"⟩)], []⟩
          ⟨2026, 10, 12⟩).2.entries) ∧
      (("a-b-1", (⟨100, 1, "garbage"⟩ : CacheEntry))
          ∈ ([("a-b-1", (⟨100, 1, "garbage"⟩ : CacheEntry))] : Store) →
        1 ≤ (PriceCache.stats ⟨"cache.json", [("a-b-1", ⟨100, 1, "garbage"⟩)], []⟩
          ⟨2026, 10, 12⟩).expired_entries)) :=
  ⟨by decide,
    unparseable_expiry_always_expired ⟨100, 1, "garbage"⟩ (by decide) ⟨2026, 10, 12⟩
      ⟨"cache.json", [("a-b-1", ⟨100, 1, "garbage"⟩)], []⟩ "a" "b" 1 "a-b-1"⟩
